import Mathlib

/-!
Verification of the HashADT linear-probing hash table (src/HashADT/HashADT.c).

The C table stores opaque pointers: a slot is a pair of a key pointer and a
value pointer, and the NULL key pointer is the empty-sentinel.  We embed the
pointer types as arbitrary types `K` and `V`, a possibly-NULL pointer as an
`Option`, and the client-supplied hash and equality callbacks as function
fields of the table structure.  `size_t` arithmetic is embedded as `Nat`;
the only increments performed are `hash_value++` along a probe of at most
`capacity` steps, so the wrap of `size_t` at 2^64 is not observable for any
client hash value below `2^64 - capacity` and is not modelled.  The `int`
collision counter is embedded as `Nat` (its overflow is undefined behaviour
in C, so no defined execution is lost).

The constants `INITIAL_CAPACITY`, `LOAD_THRESHOLD` and `RESIZE_FACTOR` live
in the header HashADT.h, which is not part of the sources; they are modelled
from the spec (sections 4.3 and 9).
-/

/-- One cell of the backing array: a key pointer and a value pointer
(HashADT.c lines 33-39).  `none` is the NULL pointer; a slot is occupied
iff its key is not `none`. -/
structure Slot (K V : Type) where
  key : Option K
  value : Option V
deriving DecidableEq, Repr

/-- The hash table state (struct hashtab_s, HashADT.c lines 47-75).  The
print and delete callbacks play no role in the claims under verification
and are omitted; all other fields are embedded one for one. -/
structure HashADT (K V : Type) where
  capacity : Nat
  occupancy : Nat
  collisions : Nat
  rehashes : Nat
  hash_fcn : K → Nat
  equals_fcn : K → K → Bool
  table : List (Slot K V)

/-- Modelled from the spec: `INITIAL_CAPACITY` is defined in the missing
header HashADT.h.  The spec fixes only that the initial capacity is positive
(section 3) and that the growth policy keeps the table from ever filling
(section 4.2); the conventional value 16 is used.  Any value of at least 4
validates the never-full invariant the spec asserts. -/
def INITIAL_CAPACITY : Nat := 16

/-- Modelled from the spec: `RESIZE_FACTOR` is defined in the missing header
HashADT.h; the spec (section 4.3) states the growth factor is 2. -/
def RESIZE_FACTOR : Nat := 2

/-- Modelled from the spec: the growth trigger `(double) occupancy / capacity
>= LOAD_THRESHOLD` (HashADT.c lines 316-318) with `LOAD_THRESHOLD = 0.75`
from the missing header, per spec section 4.3.  The comparison is embedded
exactly over the rationals as `3 * capacity <= 4 * occupancy`; 0.75 is an
exact binary double and for any capacity below 2^52 the rounding of the
double division cannot cross the threshold. -/
def loadExceeded (occ cap : Nat) : Bool := decide (3 * cap ≤ 4 * occ)

/-- Reading `t->table[i]`.  All reads performed by the C code are in bounds;
out-of-range reads return the all-NULL slot (never exercised under the
length invariant). -/
def slotAt (tbl : List (Slot K V)) (i : Nat) : Slot K V :=
  (tbl[i]?).getD ⟨none, none⟩

/-- ht_create (HashADT.c lines 81-135): initial capacity, zero counters, and
a `calloc`ed backing array, i.e. every slot is the all-NULL pair. -/
def ht_create (hash : K → Nat) (equals : K → K → Bool) : HashADT K V :=
  { capacity := INITIAL_CAPACITY
    occupancy := 0
    collisions := 0
    rehashes := 0
    hash_fcn := hash
    equals_fcn := equals
    table := List.replicate INITIAL_CAPACITY ⟨none, none⟩ }

/-- The probe loop shared by ht_has (lines 235-261) and the placement part
of ht_put (lines 405-440): starting from `hash_value = h` and walking
`index = hash_value % capacity` with `hash_value++` per step, stop at the
first empty slot (result `(j, false)`) or the first occupied slot whose key
the equality callback accepts (result `(j, true)`), where `j` counts the
probe steps taken, which is exactly the number of collision-counter
increments both loops perform.  The fuel argument bounds the walk: ht_has
exits after `capacity` steps through its `index != orig_index` guard, and
the unguarded ht_put loop reaches an empty slot within `capacity` steps
whenever one exists; `none` models the guard firing (ht_has) or the loop
cycling without finding a slot (ht_put, unreachable on reachable tables). -/
def probeFind (equals : K → K → Bool) (tbl : List (Slot K V)) (cap : Nat)
    (key : K) (h : Nat) : Nat → Nat → Option (Nat × Bool)
  | 0, _ => none
  | fuel + 1, j =>
    match (slotAt tbl ((h + j) % cap)).key with
    | none => some (j, false)
    | some k2 =>
      if equals key k2 then some (j, true)
      else probeFind equals tbl cap key h fuel (j + 1)

/-- ht_has (HashADT.c lines 220-265): probe from `hash_fcn(key) % capacity`;
false on the first empty slot, true on the first key the equality callback
accepts, one collision increment per continued step, and at most `capacity`
steps thanks to the `index != orig_index` do-while guard (the wrapped exit
adds `capacity` collision increments, one per loop body executed). -/
def ht_has (t : HashADT K V) (key : K) : Bool × HashADT K V :=
  match probeFind t.equals_fcn t.table t.capacity key (t.hash_fcn key) t.capacity 0 with
  | some (j, b) => (b, { t with collisions := t.collisions + j })
  | none => (false, { t with collisions := t.collisions + t.capacity })

/-- The probe loop of ht_get (HashADT.c lines 292-302): walk the same index
sequence and stop at the first slot whose key the equality callback accepts,
returning that slot's value pointer; no counter is touched.  On an empty
slot the C code evaluates `equals_fcn(key, NULL)`, which the asserted
precondition `ht_has` makes unreachable; it is modelled as not a match.
The loop is unguarded in C; `capacity` fuel suffices under the
precondition, and exhausted fuel yields `none`. -/
def getLoop (equals : K → K → Bool) (tbl : List (Slot K V)) (cap : Nat)
    (key : K) (h : Nat) : Nat → Nat → Option (Option V)
  | 0, _ => none
  | fuel + 1, j =>
    match (slotAt tbl ((h + j) % cap)).key with
    | some k2 =>
      if equals key k2 then some (slotAt tbl ((h + j) % cap)).value
      else getLoop equals tbl cap key h fuel (j + 1)
    | none => getLoop equals tbl cap key h fuel (j + 1)

/-- ht_get (HashADT.c lines 271-306).  The function first executes
`assert(ht_has(t, key))`, which itself increments the collision counter of
the shared table; an assertion failure aborts the program, modelled as a
`none` result.  It then re-probes without touching any counter and returns
the value pointer of the matching slot. -/
def ht_get (t : HashADT K V) (key : K) : Option (Option V) × HashADT K V :=
  match ht_has t key with
  | (true, t1) =>
    (getLoop t1.equals_fcn t1.table t1.capacity key (t1.hash_fcn key) t1.capacity 0, t1)
  | (false, t1) => (none, t1)

/-- The probe loop of the rehash path of ht_put (HashADT.c lines 350-366):
walk the index sequence of `hash` until the first empty slot of the new
array, one collision increment per occupied slot stepped over.  The inner
do-while is unguarded in C; the new array always has an empty slot, reached
within `capacity` steps, and exhausted fuel yields `none` (unreachable). -/
def emptyLoop (tbl : List (Slot K V)) (cap : Nat) (h : Nat) :
    Nat → Nat → Option Nat
  | 0, _ => none
  | fuel + 1, j =>
    match (slotAt tbl ((h + j) % cap)).key with
    | none => some j
    | some _ => emptyLoop tbl cap h fuel (j + 1)

/-- One iteration of the rehash copy loop of ht_put (HashADT.c lines
336-377): an empty old slot is skipped; an occupied old pair is re-inserted
at the first empty slot along the probe sequence of its recomputed hash,
with the collision counter advanced by the number of occupied slots stepped
over.  The accumulator carries the new array and the collision counter. -/
def rehashStep (hash : K → Nat) (cap' : Nat) (acc : List (Slot K V) × Nat)
    (pair : Slot K V) : List (Slot K V) × Nat :=
  match pair.key with
  | none => acc
  | some k =>
    match emptyLoop acc.1 cap' (hash k) cap' 0 with
    | some j => (acc.1.set ((hash k + j) % cap') pair, acc.2 + j)
    | none => (acc.1, acc.2 + cap')

/-- The `for (i = 0; i < old_capacity; i++)` drive of the rehash copy loop
(HashADT.c line 336), processing old slots in index order. -/
def rehashLoop (hash : K → Nat) (old : List (Slot K V)) (cap' : Nat) :
    Nat → Nat → List (Slot K V) × Nat → List (Slot K V) × Nat
  | _, 0, acc => acc
  | i, fuel + 1, acc => rehashLoop hash old cap' (i + 1) fuel (rehashStep hash cap' acc (slotAt old i))

/-- The rehash block of ht_put (HashADT.c lines 318-389): allocate a zeroed
array of `capacity * RESIZE_FACTOR` slots, copy every occupied old pair into
it by linear probing against the new capacity, install the new array and
capacity, and increment the rehash counter once.  Occupancy is not
touched. -/
def ht_rehash (t : HashADT K V) : HashADT K V :=
  let cap' := t.capacity * RESIZE_FACTOR
  let res := rehashLoop t.hash_fcn t.table cap' 0 t.capacity
    (List.replicate cap' ⟨none, none⟩, t.collisions)
  { t with capacity := cap', table := res.1, collisions := res.2,
           rehashes := t.rehashes + 1 }

/-- The placement part of ht_put (HashADT.c lines 391-449).  The first-slot
special case (lines 405-415) and the do-while (lines 419-440) together walk
the probe sequence to the first empty or matching slot, with one collision
increment per occupied non-matching slot stepped over, which `probeFind`
realizes: on a match the slot's value pointer is overwritten in place and
the old value pointer returned (the key field is kept); on an empty slot the
new pair is stored, occupancy incremented, and NULL returned.  The `none`
branch models the do-while cycling through a full table, which never
terminates in C and is unreachable on reachable tables. -/
def ht_place (t : HashADT K V) (key : K) (value : Option V) :
    Option V × HashADT K V :=
  match probeFind t.equals_fcn t.table t.capacity key (t.hash_fcn key) t.capacity 0 with
  | some (j, true) =>
    ((slotAt t.table ((t.hash_fcn key + j) % t.capacity)).value,
     { t with
         table := t.table.set ((t.hash_fcn key + j) % t.capacity)
           ⟨(slotAt t.table ((t.hash_fcn key + j) % t.capacity)).key, value⟩,
         collisions := t.collisions + j })
  | some (j, false) =>
    (none,
     { t with
         table := t.table.set ((t.hash_fcn key + j) % t.capacity) ⟨some key, value⟩,
         occupancy := t.occupancy + 1,
         collisions := t.collisions + j })
  | none => (none, { t with collisions := t.collisions + t.capacity })

/-- ht_put (HashADT.c lines 312-449): the growth check and rehash run first
(lines 314-389), then the call's own pair is placed against the possibly
just-grown table (lines 391-449). -/
def ht_put (t : HashADT K V) (key : K) (value : Option V) :
    Option V × HashADT K V :=
  ht_place (if loadExceeded t.occupancy t.capacity then ht_rehash t else t) key value

/-- ht_keys (HashADT.c lines 455-478): scan the backing array in index order
and collect the key pointer of every slot whose key is not NULL. -/
def ht_keys (t : HashADT K V) : List K :=
  t.table.filterMap (fun s => s.key)

/-- ht_values (HashADT.c lines 484-507): scan the backing array in index
order and collect the value pointer of every slot whose VALUE is not NULL.
This is the literal source behaviour: the filter tests the value field, not
the key field. -/
def ht_values (t : HashADT K V) : List V :=
  t.table.filterMap (fun s => s.value)

/-- The occupied pairs of a backing array, in slot order. -/
def pairList (tbl : List (Slot K V)) : List (K × Option V) :=
  tbl.filterMap (fun s => s.key.map (fun k => (k, s.value)))

/-- The number of occupied slots of a backing array. -/
def occupiedCount (tbl : List (Slot K V)) : Nat :=
  (pairList tbl).length

/-- The number of probe steps from the home index of hash `h` to index `i`,
walking forward cyclically modulo `cap`. -/
def cycDist (cap h i : Nat) : Nat :=
  (cap + i - h % cap) % cap

/-- The client-callback contract of spec section 6: the equality callback is
an equivalence and the hash callback is constant on equivalent keys. -/
structure GoodFns (hash : K → Nat) (equals : K → K → Bool) : Prop where
  refl : ∀ a, equals a a = true
  symm : ∀ a b, equals a b = true → equals b a = true
  trans : ∀ a b c, equals a b = true → equals b c = true → equals a c = true
  hashResp : ∀ a b, equals a b = true → hash a = hash b

/-- The probe-sequence ordering invariant of spec section 3: every slot on
the probe sequence of an occupied slot's key, from the home index up to and
including the slot itself, is occupied. -/
def ProbeInv (hash : K → Nat) (tbl : List (Slot K V)) (cap : Nat) : Prop :=
  ∀ i < cap, ∀ k, (slotAt tbl i).key = some k →
    ∀ d ≤ cycDist cap (hash k) i, ((slotAt tbl ((hash k + d) % cap)).key).isSome

/-- No two distinct occupied slots hold keys the equality callback
identifies. -/
def NoDupKeys (equals : K → K → Bool) (tbl : List (Slot K V)) (cap : Nat) : Prop :=
  ∀ i < cap, ∀ j < cap, i ≠ j → ∀ ki kj,
    (slotAt tbl i).key = some ki → (slotAt tbl j).key = some kj →
    equals ki kj = false

/-- The representation invariant of a table. -/
structure TableInv (t : HashADT K V) : Prop where
  len : t.table.length = t.capacity
  cap4 : 4 ≤ t.capacity
  occ : t.occupancy = occupiedCount t.table
  occLt : t.occupancy < t.capacity
  probe : ProbeInv t.hash_fcn t.table t.capacity
  nodup : NoDupKeys t.equals_fcn t.table t.capacity

/-- Tables reachable from ht_create by ht_put calls with non-NULL keys
(passing a NULL key to ht_put is outside the contract: the stored slot
would be indistinguishable from an empty one). -/
inductive Reachable : HashADT K V → Prop
  | create (hash : K → Nat) (equals : K → K → Bool) :
      Reachable (ht_create hash equals)
  | put (t : HashADT K V) (key : K) (value : Option V) :
      Reachable t → Reachable (ht_put t key value).2

-- Concrete client callbacks used for witnesses and counterexamples.

/-- Identity hash on naturals, a lawful client hash function. -/
def exHash : Nat → Nat := fun n => n

/-- A degenerate client hash mapping every key to 0, to force collisions. -/
def exHash0 : Nat → Nat := fun _ => 0

/-- Decidable equality on naturals as the client equality callback. -/
def exEq : Nat → Nat → Bool := fun a b => a == b

/-- A table holding one entry whose stored value pointer is NULL. -/
def exT1 : HashADT Nat Nat := (ht_put (ht_create exHash exEq) 5 none).2

/-- A table with two colliding keys: key 0 at its home slot 0 and key 1,
also hashing to 0, displaced to slot 1. -/
def exT2 : HashADT Nat Nat :=
  (ht_put ((ht_put (ht_create exHash0 exEq) 0 (some 10)).2) 1 (some 20)).2

/-- A table at the load threshold: twelve distinct entries in a table of
capacity sixteen, so that 3 * capacity = 4 * occupancy. -/
def exT12 : HashADT Nat Nat :=
  (List.range 12).foldl (fun t n => (ht_put t n (some n)).2) (ht_create exHash exEq)


-- Basic facts about slot access.

theorem slotAt_cons_zero (a : Slot K V) (tl : List (Slot K V)) :
    slotAt (a :: tl) 0 = a := by
  simp [slotAt]

theorem slotAt_cons_succ (a : Slot K V) (tl : List (Slot K V)) (i : Nat) :
    slotAt (a :: tl) (i + 1) = slotAt tl i := by
  simp [slotAt]

theorem slotAt_set_self {tbl : List (Slot K V)} {i : Nat} (s : Slot K V)
    (hi : i < tbl.length) : slotAt (tbl.set i s) i = s := by
  simp [slotAt, List.getElem?_set_self' , List.getElem?_eq_getElem, hi]

theorem slotAt_set_ne {tbl : List (Slot K V)} {i p : Nat} (s : Slot K V)
    (hne : i ≠ p) : slotAt (tbl.set i s) p = slotAt tbl p := by
  simp [slotAt, List.getElem?_set_ne hne]

theorem slotAt_replicate {n i : Nat} (s : Slot K V) (hi : i < n) :
    slotAt (List.replicate n s) i = s := by
  simp [slotAt, List.getElem?_replicate, hi]

theorem slotAt_eq_getElem {tbl : List (Slot K V)} {i : Nat} (hi : i < tbl.length) :
    slotAt tbl i = tbl[i] := by
  simp [slotAt, List.getElem?_eq_getElem hi]

theorem slotAt_key_isSome_set {tbl : List (Slot K V)} {p q : Nat} {s : Slot K V}
    (hs : s.key.isSome) (hq : ((slotAt tbl q).key).isSome) :
    ((slotAt (tbl.set p s) q).key).isSome := by
  by_cases hpq : p = q
  · subst hpq
    by_cases hp : p < tbl.length
    · rw [slotAt_set_self s hp]; exact hs
    · rw [List.set_eq_of_length_le (Nat.le_of_not_lt hp)]; exact hq
  · rw [slotAt_set_ne s hpq]; exact hq

-- Basic facts about the occupied-pair list.

theorem pairList_cons (a : Slot K V) (tl : List (Slot K V)) :
    pairList (a :: tl) =
      (match a.key with
       | some k => (k, a.value) :: pairList tl
       | none => pairList tl) := by
  cases hk : a.key <;> simp [pairList, List.filterMap_cons, hk]

theorem pairList_replicate_empty (n : Nat) :
    pairList (List.replicate n (⟨none, none⟩ : Slot K V)) = [] := by
  induction n with
  | zero => rfl
  | succ m ih => rw [List.replicate_succ, pairList_cons]; exact ih

theorem mem_pairList {tbl : List (Slot K V)} {k : K} {v : Option V} :
    (k, v) ∈ pairList tbl ↔
      ∃ i < tbl.length, (slotAt tbl i).key = some k ∧ (slotAt tbl i).value = v := by
  constructor
  · intro hmem
    rcases List.mem_filterMap.1 hmem with ⟨s, hs, hval⟩
    rcases List.mem_iff_getElem.1 hs with ⟨i, hi, hget⟩
    refine ⟨i, hi, ?_⟩
    rw [slotAt_eq_getElem hi, hget]
    rcases Option.map_eq_some'.1 hval with ⟨k2, hk2, hpair⟩
    rcases Prod.mk.injEq .. ▸ hpair with ⟨rfl, rfl⟩
    exact ⟨hk2, rfl⟩
  · rintro ⟨i, hi, hk, hv⟩
    refine List.mem_filterMap.2 ⟨slotAt tbl i, ?_, ?_⟩
    · rw [slotAt_eq_getElem hi]; exact List.getElem_mem hi
    · rw [hk, hv]; rfl

theorem pairList_set_insert {tbl : List (Slot K V)} {i : Nat} {k : K} {v : Option V}
    (hi : i < tbl.length) (hkey : (slotAt tbl i).key = none) :
    (↑(pairList (tbl.set i ⟨some k, v⟩)) : Multiset (K × Option V)) =
      (k, v) ::ₘ (↑(pairList tbl) : Multiset (K × Option V)) := by
  induction tbl generalizing i with
  | nil => simp at hi
  | cons a tl ih =>
    cases i with
    | zero =>
      rw [slotAt_cons_zero] at hkey
      rw [List.set_cons_zero, pairList_cons, pairList_cons, hkey]
      rfl
    | succ m =>
      rw [slotAt_cons_succ] at hkey
      have hm : m < tl.length := Nat.lt_of_succ_lt_succ hi
      rw [List.set_cons_succ, pairList_cons, pairList_cons]
      cases hk : a.key with
      | none => exact ih hm hkey
      | some ka =>
        have hrec := ih hm hkey
        rw [← Multiset.cons_coe, ← Multiset.cons_coe, hrec]
        exact Multiset.cons_swap _ _ _

theorem keys_set_same_key {tbl : List (Slot K V)} {i : Nat} {s : Slot K V}
    (hkey : s.key = (slotAt tbl i).key) :
    (tbl.set i s).filterMap (fun s => s.key) = tbl.filterMap (fun s => s.key) := by
  induction tbl generalizing i with
  | nil => simp
  | cons a tl ih =>
    cases i with
    | zero =>
      rw [slotAt_cons_zero] at hkey
      rw [List.set_cons_zero, List.filterMap_cons, List.filterMap_cons, hkey]
    | succ m =>
      rw [slotAt_cons_succ] at hkey
      rw [List.set_cons_succ, List.filterMap_cons, List.filterMap_cons, ih hkey]

theorem occupiedCount_eq_keys_length (tbl : List (Slot K V)) :
    occupiedCount tbl = (tbl.filterMap (fun s => s.key)).length := by
  induction tbl with
  | nil => rfl
  | cons a tl ih =>
    rw [occupiedCount, pairList_cons, List.filterMap_cons]
    cases hk : a.key with
    | none => exact ih
    | some k => simp only [List.length_cons]; rw [occupiedCount] at ih; rw [ih]

theorem occupiedCount_eq_card (tbl : List (Slot K V)) :
    occupiedCount tbl = Multiset.card (↑(pairList tbl) : Multiset (K × Option V)) := by
  simp [occupiedCount]

theorem occupiedCount_of_all_occupied {tbl : List (Slot K V)}
    (hall : ∀ i < tbl.length, ((slotAt tbl i).key).isSome) :
    occupiedCount tbl = tbl.length := by
  induction tbl with
  | nil => rfl
  | cons a tl ih =>
    have ha := hall 0 (Nat.succ_pos _)
    rw [slotAt_cons_zero] at ha
    rcases Option.isSome_iff_exists.1 ha with ⟨k, hk⟩
    have htl : ∀ i < tl.length, ((slotAt tl i).key).isSome := by
      intro i hi
      have := hall (i + 1) (Nat.succ_lt_succ hi)
      rwa [slotAt_cons_succ] at this
    simp only [occupiedCount, pairList_cons, hk, List.length_cons]
    simp only [occupiedCount] at ih
    rw [ih htl]

theorem exists_empty_slot {tbl : List (Slot K V)}
    (hocc : occupiedCount tbl < tbl.length) :
    ∃ i < tbl.length, (slotAt tbl i).key = none := by
  by_contra hno
  push_neg at hno
  have hall : ∀ i < tbl.length, ((slotAt tbl i).key).isSome := by
    intro i hi
    cases hk : (slotAt tbl i).key with
    | none => exact absurd hk (hno i hi)
    | some k => rfl
  exact absurd (occupiedCount_of_all_occupied hall) (Nat.ne_of_lt hocc)

-- Cyclic-distance arithmetic for the probe sequence.

theorem cycDist_lt {cap h i : Nat} (hcap : 0 < cap) : cycDist cap h i < cap :=
  Nat.mod_lt _ hcap

theorem add_cycDist_mod {cap h i : Nat} (hcap : 0 < cap) (hi : i < cap) :
    (h + cycDist cap h i) % cap = i := by
  have hr : h % cap < cap := Nat.mod_lt _ hcap
  rcases le_or_lt (h % cap) i with hle | hlt
  · have hD : cycDist cap h i = i - h % cap := by
      rw [cycDist, show cap + i - h % cap = cap + (i - h % cap) by omega,
        Nat.add_mod_left]
      exact Nat.mod_eq_of_lt (by omega)
    rw [hD, Nat.add_mod, Nat.mod_eq_of_lt (show i - h % cap < cap by omega),
      show h % cap + (i - h % cap) = i by omega, Nat.mod_eq_of_lt hi]
  · have hD : cycDist cap h i = cap + i - h % cap := by
      rw [cycDist]
      exact Nat.mod_eq_of_lt (by omega)
    rw [hD, Nat.add_mod, Nat.mod_eq_of_lt (show cap + i - h % cap < cap by omega),
      show h % cap + (cap + i - h % cap) = cap + i by omega,
      Nat.add_mod_left, Nat.mod_eq_of_lt hi]

theorem probeIdx_inj {cap h d1 d2 : Nat} (hd1 : d1 < cap) (hd2 : d2 < cap)
    (heq : (h + d1) % cap = (h + d2) % cap) : d1 = d2 := by
  have hmod : d1 % cap = d2 % cap :=
    Nat.ModEq.add_left_cancel (Nat.ModEq.refl h) heq
  rwa [Nat.mod_eq_of_lt hd1, Nat.mod_eq_of_lt hd2] at hmod

theorem cycDist_probeIdx {cap h j : Nat} (hcap : 0 < cap) (hj : j < cap) :
    cycDist cap h ((h + j) % cap) = j := by
  have hi : (h + j) % cap < cap := Nat.mod_lt _ hcap
  exact probeIdx_inj (cycDist_lt hcap) hj (add_cycDist_mod hcap hi)

-- Characterization of the probe loops.

theorem probeFind_some_spec {equals : K → K → Bool} {tbl : List (Slot K V)}
    {cap : Nat} {key : K} {h fuel j0 j : Nat} {b : Bool}
    (hpf : probeFind equals tbl cap key h fuel j0 = some (j, b)) :
    j0 ≤ j ∧ j < j0 + fuel ∧
    (∀ d, j0 ≤ d → d < j →
      ∃ kd, (slotAt tbl ((h + d) % cap)).key = some kd ∧ equals key kd = false) ∧
    (b = true →
      ∃ kj, (slotAt tbl ((h + j) % cap)).key = some kj ∧ equals key kj = true) ∧
    (b = false → (slotAt tbl ((h + j) % cap)).key = none) := by
  induction fuel generalizing j0 with
  | zero => simp [probeFind] at hpf
  | succ fuel ih =>
    rw [probeFind] at hpf
    cases hslot : (slotAt tbl ((h + j0) % cap)).key with
    | none =>
      simp only [hslot, Option.some.injEq, Prod.mk.injEq] at hpf
      obtain ⟨rfl, rfl⟩ := hpf
      exact ⟨Nat.le_refl _, by omega, fun d hd1 hd2 => by omega, by simp, fun _ => hslot⟩
    | some k2 =>
      simp only [hslot] at hpf
      by_cases heq : equals key k2 = true
      · rw [if_pos heq] at hpf
        simp only [Option.some.injEq, Prod.mk.injEq] at hpf
        obtain ⟨rfl, rfl⟩ := hpf
        exact ⟨Nat.le_refl _, by omega, fun d hd1 hd2 => by omega,
          fun _ => ⟨k2, hslot, heq⟩, by simp⟩
      · rw [if_neg heq] at hpf
        rcases ih hpf with ⟨hle, hlt, hprev, hb⟩
        refine ⟨by omega, by omega, ?_, hb⟩
        intro d hd1 hd2
        rcases Nat.eq_or_lt_of_le hd1 with rfl | hd1'
        · exact ⟨k2, hslot, Bool.eq_false_iff.2 heq⟩
        · exact hprev d hd1' hd2

theorem probeFind_none_spec {equals : K → K → Bool} {tbl : List (Slot K V)}
    {cap : Nat} {key : K} {h fuel j0 : Nat}
    (hpf : probeFind equals tbl cap key h fuel j0 = none) :
    ∀ d, j0 ≤ d → d < j0 + fuel →
      ∃ kd, (slotAt tbl ((h + d) % cap)).key = some kd ∧ equals key kd = false := by
  induction fuel generalizing j0 with
  | zero => intro d h1 h2; omega
  | succ fuel ih =>
    rw [probeFind] at hpf
    cases hslot : (slotAt tbl ((h + j0) % cap)).key with
    | none => simp only [hslot] at hpf; cases hpf
    | some k2 =>
      simp only [hslot] at hpf
      by_cases heq : equals key k2 = true
      · rw [if_pos heq] at hpf; cases hpf
      · rw [if_neg heq] at hpf
        intro d hd1 hd2
        rcases Nat.eq_or_lt_of_le hd1 with rfl | hd1'
        · exact ⟨k2, hslot, Bool.eq_false_iff.2 heq⟩
        · exact ih hpf d hd1' (by omega)

theorem probeFind_eq_empty {equals : K → K → Bool} {tbl : List (Slot K V)}
    {cap : Nat} {key : K} {h fuel j0 j : Nat}
    (hj0 : j0 ≤ j) (hjf : j < j0 + fuel)
    (hocc : ∀ d, j0 ≤ d → d < j →
      ∃ kd, (slotAt tbl ((h + d) % cap)).key = some kd ∧ equals key kd = false)
    (hempty : (slotAt tbl ((h + j) % cap)).key = none) :
    probeFind equals tbl cap key h fuel j0 = some (j, false) := by
  induction fuel generalizing j0 with
  | zero => omega
  | succ fuel ih =>
    rw [probeFind]
    rcases Nat.eq_or_lt_of_le hj0 with rfl | hj0'
    · simp only [hempty]
    · rcases hocc j0 (Nat.le_refl _) hj0' with ⟨kd, hkd, hne⟩
      simp only [hkd]
      rw [if_neg (Bool.eq_false_iff.1 hne)]
      exact ih (by omega) (by omega) (fun d hd1 hd2 => hocc d (by omega) hd2)

theorem probeFind_eq_match {equals : K → K → Bool} {tbl : List (Slot K V)}
    {cap : Nat} {key kj : K} {h fuel j0 j : Nat}
    (hj0 : j0 ≤ j) (hjf : j < j0 + fuel)
    (hocc : ∀ d, j0 ≤ d → d < j →
      ∃ kd, (slotAt tbl ((h + d) % cap)).key = some kd ∧ equals key kd = false)
    (hkj : (slotAt tbl ((h + j) % cap)).key = some kj)
    (heq : equals key kj = true) :
    probeFind equals tbl cap key h fuel j0 = some (j, true) := by
  induction fuel generalizing j0 with
  | zero => omega
  | succ fuel ih =>
    rw [probeFind]
    rcases Nat.eq_or_lt_of_le hj0 with rfl | hj0'
    · simp only [hkj]
      rw [if_pos heq]
    · rcases hocc j0 (Nat.le_refl _) hj0' with ⟨kd, hkd, hne⟩
      simp only [hkd]
      rw [if_neg (Bool.eq_false_iff.1 hne)]
      exact ih (by omega) (by omega) (fun d hd1 hd2 => hocc d (by omega) hd2)

theorem getLoop_eq {equals : K → K → Bool} {tbl : List (Slot K V)}
    {cap : Nat} {key kj : K} {h fuel j0 j : Nat}
    (hj0 : j0 ≤ j) (hjf : j < j0 + fuel)
    (hocc : ∀ d, j0 ≤ d → d < j → ∀ kd,
      (slotAt tbl ((h + d) % cap)).key = some kd → equals key kd = false)
    (hkj : (slotAt tbl ((h + j) % cap)).key = some kj)
    (heq : equals key kj = true) :
    getLoop equals tbl cap key h fuel j0 = some (slotAt tbl ((h + j) % cap)).value := by
  induction fuel generalizing j0 with
  | zero => omega
  | succ fuel ih =>
    rw [getLoop]
    rcases Nat.eq_or_lt_of_le hj0 with rfl | hj0'
    · simp only [hkj]
      rw [if_pos heq]
    · cases hslot : (slotAt tbl ((h + j0) % cap)).key with
      | none =>
        simp only [hslot]
        exact ih (by omega) (by omega) (fun d hd1 hd2 => hocc d (by omega) hd2)
      | some k2 =>
        simp only [hslot]
        rw [if_neg (Bool.eq_false_iff.1 (hocc j0 (Nat.le_refl _) hj0' k2 hslot))]
        exact ih (by omega) (by omega) (fun d hd1 hd2 => hocc d (by omega) hd2)

theorem emptyLoop_some_spec {tbl : List (Slot K V)} {cap h fuel j0 j : Nat}
    (hel : emptyLoop tbl cap h fuel j0 = some j) :
    j0 ≤ j ∧ j < j0 + fuel ∧
    (∀ d, j0 ≤ d → d < j → ((slotAt tbl ((h + d) % cap)).key).isSome) ∧
    (slotAt tbl ((h + j) % cap)).key = none := by
  induction fuel generalizing j0 with
  | zero => simp [emptyLoop] at hel
  | succ fuel ih =>
    rw [emptyLoop] at hel
    cases hslot : (slotAt tbl ((h + j0) % cap)).key with
    | none =>
      simp only [hslot, Option.some.injEq] at hel
      subst hel
      exact ⟨Nat.le_refl _, by omega, fun d hd1 hd2 => by omega, hslot⟩
    | some k2 =>
      simp only [hslot] at hel
      rcases ih hel with ⟨hle, hlt, hprev, hend⟩
      refine ⟨by omega, by omega, ?_, hend⟩
      intro d hd1 hd2
      rcases Nat.eq_or_lt_of_le hd1 with rfl | hd1'
      · rw [hslot]; rfl
      · exact hprev d hd1' hd2

theorem emptyLoop_none_spec {tbl : List (Slot K V)} {cap h fuel j0 : Nat}
    (hel : emptyLoop tbl cap h fuel j0 = none) :
    ∀ d, j0 ≤ d → d < j0 + fuel → ((slotAt tbl ((h + d) % cap)).key).isSome := by
  induction fuel generalizing j0 with
  | zero => intro d h1 h2; omega
  | succ fuel ih =>
    rw [emptyLoop] at hel
    cases hslot : (slotAt tbl ((h + j0) % cap)).key with
    | none => simp only [hslot] at hel; cases hel
    | some k2 =>
      simp only [hslot] at hel
      intro d hd1 hd2
      rcases Nat.eq_or_lt_of_le hd1 with rfl | hd1'
      · rw [hslot]; rfl
      · exact ih hel d hd1' (by omega)

theorem probeFind_isSome {equals : K → K → Bool} {tbl : List (Slot K V)}
    {cap : Nat} {key : K} {h : Nat} (hlen : tbl.length = cap)
    (hocc : occupiedCount tbl < cap) :
    (probeFind equals tbl cap key h cap 0).isSome := by
  have hcap : 0 < cap := Nat.lt_of_le_of_lt (Nat.zero_le _) hocc
  rcases exists_empty_slot (hlen ▸ hocc) with ⟨i, hi, hempty⟩
  rw [hlen] at hi
  cases hpf : probeFind equals tbl cap key h cap 0 with
  | some r => rfl
  | none =>
    rcases probeFind_none_spec hpf (cycDist cap h i) (Nat.zero_le _)
      (by simpa using cycDist_lt hcap) with ⟨kd, hkd, _⟩
    rw [add_cycDist_mod hcap hi, hempty] at hkd
    cases hkd

theorem emptyLoop_isSome {tbl : List (Slot K V)} {cap h : Nat}
    (hlen : tbl.length = cap) (hocc : occupiedCount tbl < cap) :
    (emptyLoop tbl cap h cap 0).isSome := by
  have hcap : 0 < cap := Nat.lt_of_le_of_lt (Nat.zero_le _) hocc
  rcases exists_empty_slot (hlen ▸ hocc) with ⟨i, hi, hempty⟩
  rw [hlen] at hi
  cases hel : emptyLoop tbl cap h cap 0 with
  | some r => rfl
  | none =>
    have := emptyLoop_none_spec hel (cycDist cap h i) (Nat.zero_le _)
      (by simpa using cycDist_lt hcap)
    rw [add_cycDist_mod hcap hi, hempty] at this
    cases this

-- The central linear-probing lemma: under the representation invariant the
-- probe for a key stops exactly at the slot holding an equivalent key.

theorem probeFind_match_of_inv {hash : K → Nat} {equals : K → K → Bool}
    {tbl : List (Slot K V)} {cap : Nat} {key ki : K} {i : Nat}
    (G : GoodFns hash equals) (hcap : 0 < cap)
    (hPI : ProbeInv hash tbl cap) (hND : NoDupKeys equals tbl cap)
    (hi : i < cap) (hki : (slotAt tbl i).key = some ki)
    (heq : equals key ki = true) :
    probeFind equals tbl cap key (hash key) cap 0 =
      some (cycDist cap (hash key) i, true) := by
  have hhash : hash key = hash ki := G.hashResp key ki heq
  have hD : (hash key + cycDist cap (hash key) i) % cap = i :=
    add_cycDist_mod hcap hi
  refine probeFind_eq_match (Nat.zero_le _) (by simpa using cycDist_lt hcap)
    ?_ (by rw [hD]; exact hki) heq
  intro d hd0 hdD
  have hdcap : d < cap := Nat.lt_trans hdD (cycDist_lt hcap)
  have hocc : ((slotAt tbl ((hash key + d) % cap)).key).isSome := by
    have := hPI i hi ki hki d
    rw [← hhash] at this
    exact this (Nat.le_of_lt hdD)
  rcases Option.isSome_iff_exists.1 hocc with ⟨kd, hkd⟩
  refine ⟨kd, hkd, ?_⟩
  by_contra hne
  have hkeq : equals key kd = true := by
    cases hkb : equals key kd
    · exact absurd hkb hne
    · rfl
  have hne2 : (hash key + d) % cap ≠ i := by
    intro hcontra
    rw [← hD] at hcontra
    exact absurd (probeIdx_inj hdcap (cycDist_lt hcap) hcontra) (Nat.ne_of_lt hdD)
  have hik : equals ki kd = true :=
    G.trans ki key kd (G.symm key ki heq) hkeq
  have hfalse := hND i hi ((hash key + d) % cap) (Nat.mod_lt _ hcap)
    (Ne.symm hne2) ki kd hki hkd
  rw [hfalse] at hik
  cases hik

-- Congruence and monotonicity of the invariants under table surgery.

theorem probeInv_congr {hash : K → Nat} {tbl tbl' : List (Slot K V)} {cap : Nat}
    (hkeys : ∀ p, (slotAt tbl' p).key = (slotAt tbl p).key)
    (hPI : ProbeInv hash tbl cap) : ProbeInv hash tbl' cap := by
  intro i hi k hk d hd
  rw [hkeys]
  exact hPI i hi k (by rw [← hkeys i]; exact hk) d hd

theorem noDupKeys_congr {equals : K → K → Bool} {tbl tbl' : List (Slot K V)}
    {cap : Nat} (hkeys : ∀ p, (slotAt tbl' p).key = (slotAt tbl p).key)
    (hND : NoDupKeys equals tbl cap) : NoDupKeys equals tbl' cap := by
  intro i hi j hj hne ki kj hki hkj
  exact hND i hi j hj hne ki kj (by rw [← hkeys i]; exact hki)
    (by rw [← hkeys j]; exact hkj)

theorem probeInv_insert {hash : K → Nat} {tbl : List (Slot K V)} {cap : Nat}
    {k : K} {v : Option V} {j : Nat}
    (hlen : tbl.length = cap) (hcap : 0 < cap) (hj : j < cap)
    (hPI : ProbeInv hash tbl cap)
    (hprev : ∀ d, d < j → ((slotAt tbl ((hash k + d) % cap)).key).isSome)
    (hempty : (slotAt tbl ((hash k + j) % cap)).key = none) :
    ProbeInv hash (tbl.set ((hash k + j) % cap) ⟨some k, v⟩) cap := by
  have histarlt : (hash k + j) % cap < cap := Nat.mod_lt _ hcap
  intro i hi k2 hk2 d hd
  by_cases hii : i = (hash k + j) % cap
  · rw [hii, slotAt_set_self _ (hlen ▸ histarlt)] at hk2
    have hk2' : k2 = k := by simpa using hk2.symm
    subst hk2'
    have hcd : cycDist cap (hash k2) i = j := by
      rw [hii]
      exact cycDist_probeIdx hcap hj
    rw [hcd] at hd
    rcases Nat.eq_or_lt_of_le hd with rfl | hdj
    · rw [← hii, hii, slotAt_set_self _ (hlen ▸ histarlt)]
      rfl
    · have hne : (hash k2 + d) % cap ≠ (hash k2 + j) % cap := fun hc =>
        absurd (probeIdx_inj (Nat.lt_trans hdj hj) hj hc) (Nat.ne_of_lt hdj)
      rw [slotAt_set_ne _ (Ne.symm hne)]
      exact hprev d hdj
  · rw [slotAt_set_ne _ (Ne.symm hii)] at hk2
    have horig := hPI i hi k2 hk2 d hd
    by_cases hdi : (hash k2 + d) % cap = (hash k + j) % cap
    · rw [hdi, slotAt_set_self _ (hlen ▸ histarlt)]
      rfl
    · rw [slotAt_set_ne _ (Ne.symm hdi)]
      exact horig

theorem noDupKeys_insert {equals : K → K → Bool} {tbl : List (Slot K V)}
    {cap : Nat} {k : K} {v : Option V} {istar : Nat}
    (hlen : tbl.length = cap) (histar : istar < cap)
    (hND : NoDupKeys equals tbl cap)
    (hno : ∀ p < cap, ∀ kp, (slotAt tbl p).key = some kp →
      equals k kp = false ∧ equals kp k = false) :
    NoDupKeys equals (tbl.set istar ⟨some k, v⟩) cap := by
  intro i hi j hj hne ki kj hki hkj
  by_cases hii : i = istar
  · subst hii
    rw [slotAt_set_self _ (hlen ▸ histar)] at hki
    have hki' : ki = k := by simpa using hki.symm
    subst hki'
    rw [slotAt_set_ne _ hne] at hkj
    exact (hno j hj kj hkj).1
  · rw [slotAt_set_ne _ (Ne.symm hii)] at hki
    by_cases hjj : j = istar
    · subst hjj
      rw [slotAt_set_self _ (hlen ▸ histar)] at hkj
      have hkj' : kj = k := by simpa using hkj.symm
      subst hkj'
      exact (hno i hi ki hki).2
    · rw [slotAt_set_ne _ (Ne.symm hjj)] at hkj
      exact hND i hi j hj hne ki kj hki hkj

-- Facts about ht_has and ht_get.

theorem ht_has_frame (t : HashADT K V) (key : K) :
    (ht_has t key).2.capacity = t.capacity ∧
    (ht_has t key).2.occupancy = t.occupancy ∧
    (ht_has t key).2.rehashes = t.rehashes ∧
    (ht_has t key).2.table = t.table ∧
    (ht_has t key).2.hash_fcn = t.hash_fcn ∧
    (ht_has t key).2.equals_fcn = t.equals_fcn := by
  rw [ht_has]
  cases hpf : probeFind t.equals_fcn t.table t.capacity key (t.hash_fcn key) t.capacity 0 with
  | none => exact ⟨rfl, rfl, rfl, rfl, rfl, rfl⟩
  | some r => cases r; exact ⟨rfl, rfl, rfl, rfl, rfl, rfl⟩

theorem ht_get_snd (t : HashADT K V) (key : K) :
    (ht_get t key).2 = (ht_has t key).2 := by
  rw [ht_get]
  rcases hht : ht_has t key with ⟨b, t1⟩
  cases b <;> rfl

theorem ht_has_eq_true {t : HashADT K V} {key ki : K} {i : Nat}
    (G : GoodFns t.hash_fcn t.equals_fcn) (hInv : TableInv t)
    (hi : i < t.capacity) (hki : (slotAt t.table i).key = some ki)
    (heq : t.equals_fcn key ki = true) : (ht_has t key).1 = true := by
  have hcap : 0 < t.capacity := by have := hInv.cap4; omega
  have hpf := probeFind_match_of_inv G hcap hInv.probe hInv.nodup
    hi hki heq
  rw [ht_has, hpf]

theorem exists_match_of_ht_has {t : HashADT K V} {key : K}
    (hhas : (ht_has t key).1 = true) :
    ∃ i < t.capacity, ∃ ki, (slotAt t.table i).key = some ki ∧
      t.equals_fcn key ki = true ∧
      probeFind t.equals_fcn t.table t.capacity key (t.hash_fcn key) t.capacity 0 =
        some (cycDist t.capacity (t.hash_fcn key) i, true) := by
  cases hpf : probeFind t.equals_fcn t.table t.capacity key (t.hash_fcn key) t.capacity 0 with
  | none => rw [ht_has] at hhas; simp only [hpf] at hhas; cases hhas
  | some r =>
    rcases r with ⟨j, b⟩
    cases b with
    | false => rw [ht_has] at hhas; simp only [hpf] at hhas; cases hhas
    | true =>
      rcases probeFind_some_spec hpf with ⟨-, hjcap, -, hmatch, -⟩
      rcases hmatch rfl with ⟨kj, hkj, heq⟩
      have hjcap' : j < t.capacity := by omega
      have hcap : 0 < t.capacity := Nat.lt_of_le_of_lt (Nat.zero_le _) hjcap'
      refine ⟨(t.hash_fcn key + j) % t.capacity, Nat.mod_lt _ hcap, kj, hkj, heq, ?_⟩
      rw [cycDist_probeIdx hcap hjcap']

theorem no_match_of_ht_has_false {t : HashADT K V} {key : K}
    (G : GoodFns t.hash_fcn t.equals_fcn) (hInv : TableInv t)
    (hhas : (ht_has t key).1 = false) :
    ∀ i < t.capacity, ∀ ki, (slotAt t.table i).key = some ki →
      t.equals_fcn key ki = false := by
  intro i hi ki hki
  cases hkb : t.equals_fcn key ki with
  | false => rfl
  | true =>
    rw [ht_has_eq_true G hInv hi hki hkb] at hhas
    cases hhas

theorem ht_get_spec {t : HashADT K V} {key : K}
    (hhas : (ht_has t key).1 = true) :
    ∃ i < t.capacity, ∃ ki, (slotAt t.table i).key = some ki ∧
      t.equals_fcn key ki = true ∧
      (ht_get t key).1 = some (slotAt t.table i).value := by
  rcases exists_match_of_ht_has hhas with ⟨i, hi, ki, hki, heq, hpf⟩
  refine ⟨i, hi, ki, hki, heq, ?_⟩
  have hcap : 0 < t.capacity := Nat.lt_of_le_of_lt (Nat.zero_le _) hi
  rcases probeFind_some_spec hpf with ⟨-, -, hprev, -, -⟩
  rcases hframe : ht_has t key with ⟨b, t1⟩
  have hb : b = true := by rw [hframe] at hhas; exact hhas
  subst hb
  rw [ht_get, hframe]
  have ht1 : t1 = (ht_has t key).2 := by rw [hframe]
  rcases ht_has_frame t key with ⟨hc, -, -, htab, hh, he⟩
  show getLoop t1.equals_fcn t1.table t1.capacity key (t1.hash_fcn key) t1.capacity 0 =
    some (slotAt t.table i).value
  rw [ht1, hc, htab, hh, he]
  have hD : (t.hash_fcn key + cycDist t.capacity (t.hash_fcn key) i) % t.capacity = i :=
    add_cycDist_mod hcap hi
  have : getLoop t.equals_fcn t.table t.capacity key (t.hash_fcn key) t.capacity 0 =
      some (slotAt t.table ((t.hash_fcn key + cycDist t.capacity (t.hash_fcn key) i) %
        t.capacity)).value := by
    refine getLoop_eq (Nat.zero_le _) (by simpa using cycDist_lt hcap) ?_
      (by rw [hD]; exact hki) heq
    intro d hd0 hdD kd hkd
    rcases hprev d hd0 hdD with ⟨kd', hkd', hne'⟩
    rw [hkd] at hkd'
    rw [Option.some_injective _ hkd'.symm] at hne'
    exact hne'
  rw [this, hD]

-- Facts about the placement part of ht_put.

theorem occupiedCount_set_insert {tbl : List (Slot K V)} {i : Nat} {k : K}
    {v : Option V} (hi : i < tbl.length) (hkey : (slotAt tbl i).key = none) :
    occupiedCount (tbl.set i ⟨some k, v⟩) = occupiedCount tbl + 1 := by
  rw [occupiedCount_eq_card, occupiedCount_eq_card, pairList_set_insert hi hkey]
  simp

theorem ht_place_frame (t : HashADT K V) (key : K) (v : Option V) :
    (ht_place t key v).2.capacity = t.capacity ∧
    (ht_place t key v).2.rehashes = t.rehashes ∧
    (ht_place t key v).2.hash_fcn = t.hash_fcn ∧
    (ht_place t key v).2.equals_fcn = t.equals_fcn := by
  rw [ht_place]
  cases hpf : probeFind t.equals_fcn t.table t.capacity key (t.hash_fcn key) t.capacity 0 with
  | none => exact ⟨rfl, rfl, rfl, rfl⟩
  | some r =>
    rcases r with ⟨j, b⟩
    cases b <;> exact ⟨rfl, rfl, rfl, rfl⟩

theorem ht_place_match {t : HashADT K V} {key ki : K} {i : Nat} (v : Option V)
    (G : GoodFns t.hash_fcn t.equals_fcn) (hInv : TableInv t)
    (hi : i < t.capacity) (hki : (slotAt t.table i).key = some ki)
    (heq : t.equals_fcn key ki = true) :
    (ht_place t key v).1 = (slotAt t.table i).value ∧
    (ht_place t key v).2.table = t.table.set i ⟨some ki, v⟩ ∧
    (ht_place t key v).2.occupancy = t.occupancy := by
  have hcap : 0 < t.capacity := by have := hInv.cap4; omega
  have hpf := probeFind_match_of_inv G hcap hInv.probe hInv.nodup
    hi hki heq
  have hD : (t.hash_fcn key + cycDist t.capacity (t.hash_fcn key) i) % t.capacity = i :=
    add_cycDist_mod hcap hi
  rw [ht_place]
  simp only [hpf]
  refine ⟨by rw [hD], ?_, by trivial⟩
  rw [hD, hki]

theorem ht_place_insert {t : HashADT K V} {key : K} (v : Option V)
    (hInv : TableInv t)
    (hno : ∀ i < t.capacity, ∀ ki, (slotAt t.table i).key = some ki →
      t.equals_fcn key ki = false) :
    (ht_place t key v).1 = none ∧
    (ht_place t key v).2.occupancy = t.occupancy + 1 ∧
    ∃ istar < t.capacity, (slotAt t.table istar).key = none ∧
      (ht_place t key v).2.table = t.table.set istar ⟨some key, v⟩ ∧
      (slotAt (ht_place t key v).2.table istar).key = some key ∧
      (slotAt (ht_place t key v).2.table istar).value = v := by
  have hcap : 0 < t.capacity := by have := hInv.cap4; omega
  have hocc : occupiedCount t.table < t.capacity := hInv.occ ▸ hInv.occLt
  have hsome := @probeFind_isSome K V t.equals_fcn t.table t.capacity key
    (t.hash_fcn key) hInv.len hocc
  cases hpf : probeFind t.equals_fcn t.table t.capacity key (t.hash_fcn key) t.capacity 0 with
  | none => rw [hpf] at hsome; cases hsome
  | some r =>
    rcases r with ⟨j, b⟩
    cases b with
    | true =>
      rcases probeFind_some_spec hpf with ⟨-, -, -, hmatch, -⟩
      rcases hmatch rfl with ⟨kj, hkj, heqj⟩
      have hjlt : (t.hash_fcn key + j) % t.capacity < t.capacity := Nat.mod_lt _ hcap
      rw [hno _ hjlt kj hkj] at heqj
      cases heqj
    | false =>
      rcases probeFind_some_spec hpf with ⟨-, hjb, -, -, hempty⟩
      have hempty' := hempty rfl
      have hjlt : (t.hash_fcn key + j) % t.capacity < t.capacity := Nat.mod_lt _ hcap
      rw [ht_place, hpf]
      refine ⟨rfl, rfl, (t.hash_fcn key + j) % t.capacity, hjlt, hempty', rfl, ?_, ?_⟩
      · show (slotAt (t.table.set ((t.hash_fcn key + j) % t.capacity)
          ⟨some key, v⟩) ((t.hash_fcn key + j) % t.capacity)).key = some key
        rw [slotAt_set_self _ (hInv.len ▸ hjlt)]
      · show (slotAt (t.table.set ((t.hash_fcn key + j) % t.capacity)
          ⟨some key, v⟩) ((t.hash_fcn key + j) % t.capacity)).value = v
        rw [slotAt_set_self _ (hInv.len ▸ hjlt)]

theorem occupiedCount_set_same_key {tbl : List (Slot K V)} {i : Nat}
    {s : Slot K V} (hkey : s.key = (slotAt tbl i).key) :
    occupiedCount (tbl.set i s) = occupiedCount tbl := by
  rw [occupiedCount_eq_keys_length, occupiedCount_eq_keys_length,
    keys_set_same_key hkey]

theorem TableInv_place {t : HashADT K V} {key : K} {v : Option V}
    (G : GoodFns t.hash_fcn t.equals_fcn) (hInv : TableInv t)
    (hroom : 4 * t.occupancy < 3 * t.capacity) :
    TableInv (ht_place t key v).2 := by
  have hcap : 0 < t.capacity := by have := hInv.cap4; omega
  cases hpf : probeFind t.equals_fcn t.table t.capacity key (t.hash_fcn key) t.capacity 0 with
  | none =>
    rw [ht_place]
    simp only [hpf]
    exact ⟨hInv.len, hInv.cap4, hInv.occ, hInv.occLt, hInv.probe, hInv.nodup⟩
  | some r =>
    rcases r with ⟨j, b⟩
    rcases probeFind_some_spec hpf with ⟨-, hjb, hprev, hbt, hbf⟩
    have hjlt : j < t.capacity := by omega
    have histar : (t.hash_fcn key + j) % t.capacity < t.capacity := Nat.mod_lt _ hcap
    cases b with
    | true =>
      rw [ht_place]
      simp only [hpf]
      have hkeys : ∀ p, (slotAt (t.table.set ((t.hash_fcn key + j) % t.capacity)
          ⟨(slotAt t.table ((t.hash_fcn key + j) % t.capacity)).key, v⟩) p).key
          = (slotAt t.table p).key := by
        intro p
        by_cases hp : ((t.hash_fcn key + j) % t.capacity) = p
        · subst hp
          rw [slotAt_set_self _ (hInv.len ▸ histar)]
        · rw [slotAt_set_ne _ hp]
      refine ⟨?_, hInv.cap4, ?_, hInv.occLt, ?_, ?_⟩
      · show (t.table.set _ _).length = t.capacity
        rw [List.length_set]
        exact hInv.len
      · show t.occupancy = occupiedCount (t.table.set _ _)
        rw [@occupiedCount_set_same_key K V t.table ((t.hash_fcn key + j) % t.capacity)
          ⟨(slotAt t.table ((t.hash_fcn key + j) % t.capacity)).key, v⟩ rfl]
        exact hInv.occ
      · exact probeInv_congr hkeys hInv.probe
      · exact noDupKeys_congr hkeys hInv.nodup
    | false =>
      have hempty := hbf rfl
      have hprev' : ∀ d, d < j →
          ((slotAt t.table ((t.hash_fcn key + d) % t.capacity)).key).isSome := by
        intro d hd
        rcases hprev d (Nat.zero_le _) hd with ⟨kd, hkd, -⟩
        rw [hkd]
        rfl
      have hno : ∀ p < t.capacity, ∀ kp, (slotAt t.table p).key = some kp →
          t.equals_fcn key kp = false ∧ t.equals_fcn kp key = false := by
        intro p hp kp hkp
        constructor
        · cases hkb : t.equals_fcn key kp with
          | false => rfl
          | true =>
            have hcontra := probeFind_match_of_inv G hcap
              hInv.probe hInv.nodup hp hkp hkb
            rw [hpf] at hcontra
            simp at hcontra
        · cases hkb : t.equals_fcn kp key with
          | false => rfl
          | true =>
            have hkb' := G.symm kp key hkb
            have hcontra := probeFind_match_of_inv G hcap
              hInv.probe hInv.nodup hp hkp hkb'
            rw [hpf] at hcontra
            simp at hcontra
      rw [ht_place]
      simp only [hpf]
      refine ⟨?_, hInv.cap4, ?_, ?_, ?_, ?_⟩
      · show (t.table.set _ _).length = t.capacity
        rw [List.length_set]
        exact hInv.len
      · show t.occupancy + 1 = occupiedCount (t.table.set _ _)
        rw [occupiedCount_set_insert (hInv.len ▸ histar) hempty, ← hInv.occ]
      · show t.occupancy + 1 < t.capacity
        have := hInv.cap4
        omega
      · exact probeInv_insert hInv.len hcap hjlt hInv.probe hprev' hempty
      · exact noDupKeys_insert hInv.len histar hInv.nodup hno

-- Facts about the rehash copy loop.

theorem slotAt_take {tbl : List (Slot K V)} {i oi : Nat} (hoi : oi < i) :
    slotAt (tbl.take i) oi = slotAt tbl oi := by
  simp [slotAt, List.getElem?_take, hoi]

theorem pairList_take_succ {tbl : List (Slot K V)} {i : Nat} (hi : i < tbl.length) :
    pairList (tbl.take (i + 1)) = pairList (tbl.take i) ++ pairList [slotAt tbl i] := by
  rw [slotAt_eq_getElem hi]
  unfold pairList
  rw [List.take_succ, List.filterMap_append, List.getElem?_eq_getElem hi]
  rfl

theorem occupiedCount_take_le (tbl : List (Slot K V)) (i : Nat) :
    occupiedCount (tbl.take i) ≤ occupiedCount tbl :=
  List.Sublist.length_le (List.Sublist.filterMap _ (List.take_sublist i tbl))

/-- The loop invariant of the rehash copy loop: after the first `i` old
slots have been processed, the new array satisfies the length, probe and
no-duplicate invariants and holds exactly the occupied pairs of the
processed prefix. -/
structure RehashAcc (hash : K → Nat) (equals : K → K → Bool)
    (old : List (Slot K V)) (cap' : Nat) (i : Nat)
    (tbl : List (Slot K V)) : Prop where
  len : tbl.length = cap'
  probe : ProbeInv hash tbl cap'
  nodup : NoDupKeys equals tbl cap'
  pairs : (↑(pairList tbl) : Multiset (K × Option V)) = ↑(pairList (old.take i))

theorem rehashStep_acc {hash : K → Nat} {equals : K → K → Bool}
    {old : List (Slot K V)} {capOld cap' i : Nat} {acc : List (Slot K V) × Nat}
    (hlenOld : old.length = capOld)
    (hNDold : NoDupKeys equals old capOld)
    (hoccOld : occupiedCount old < cap') (hi : i < capOld)
    (hacc : RehashAcc hash equals old cap' i acc.1) :
    RehashAcc hash equals old cap' (i + 1) (rehashStep hash cap' acc (slotAt old i)).1 := by
  have hilen : i < old.length := hlenOld ▸ hi
  cases hk : (slotAt old i).key with
  | none =>
    rw [rehashStep]
    simp only [hk]
    refine ⟨hacc.len, hacc.probe, hacc.nodup, ?_⟩
    rw [hacc.pairs, pairList_take_succ hilen, pairList_cons]
    simp only [hk]
    simp [pairList]
  | some k =>
    have hcap' : 0 < cap' := Nat.lt_of_le_of_lt (Nat.zero_le _) hoccOld
    have hoccacc : occupiedCount acc.1 < cap' := by
      have h1 : occupiedCount acc.1 = occupiedCount (old.take i) := by
        rw [occupiedCount_eq_card, occupiedCount_eq_card, hacc.pairs]
      have h2 := occupiedCount_take_le old i
      omega
    have hsome := @emptyLoop_isSome K V acc.1 cap' (hash k) hacc.len hoccacc
    cases hel : emptyLoop acc.1 cap' (hash k) cap' 0 with
    | none => rw [hel] at hsome; cases hsome
    | some jm =>
      rcases emptyLoop_some_spec hel with ⟨-, hjmb, hprevm, hemptym⟩
      have hjm : jm < cap' := by omega
      have histar : (hash k + jm) % cap' < cap' := Nat.mod_lt _ hcap'
      have hpair : slotAt old i = (⟨some k, (slotAt old i).value⟩ : Slot K V) := by
        rw [← hk]
      have hno : ∀ p < cap', ∀ kp, (slotAt acc.1 p).key = some kp →
          equals k kp = false ∧ equals kp k = false := by
        intro p hp kp hkp
        have hmem : (kp, (slotAt acc.1 p).value) ∈ pairList acc.1 :=
          mem_pairList.2 ⟨p, hacc.len ▸ hp, hkp, rfl⟩
        have hperm : (pairList acc.1).Perm (pairList (old.take i)) :=
          Multiset.coe_eq_coe.1 hacc.pairs
        have hmem2 := hperm.mem_iff.1 hmem
        rcases mem_pairList.1 hmem2 with ⟨oi, hoi, hkoi, -⟩
        have hoi' : oi < i := by
          have := List.length_take_le i old
          have h3 : (old.take i).length = i := List.length_take_of_le (Nat.le_of_lt hilen)
          omega
        rw [slotAt_take hoi'] at hkoi
        have hne : i ≠ oi := Nat.ne_of_gt hoi'
        have hoicap : oi < capOld := Nat.lt_trans hoi' hi
        exact ⟨hNDold i hi oi hoicap hne k kp hk hkoi,
          hNDold oi hoicap i hi (Ne.symm hne) kp k hkoi hk⟩
      rw [rehashStep]
      simp only [hk, hel]
      refine ⟨?_, ?_, ?_, ?_⟩
      · show (acc.1.set _ _).length = cap'
        rw [List.length_set]
        exact hacc.len
      · rw [hpair]
        exact probeInv_insert hacc.len hcap' hjm hacc.probe
          (fun d hd => hprevm d (Nat.zero_le _) hd) hemptym
      · rw [hpair]
        exact noDupKeys_insert hacc.len histar hacc.nodup hno
      · rw [hpair, pairList_set_insert (hacc.len ▸ histar) hemptym, hacc.pairs,
          pairList_take_succ hilen, pairList_cons]
        simp only [hk]
        show (k, (slotAt old i).value) ::ₘ ↑(pairList (old.take i)) =
          (↑(pairList (old.take i) ++ (k, (slotAt old i).value) :: pairList []) :
            Multiset (K × Option V))
        rw [← Multiset.coe_add]
        show (k, (slotAt old i).value) ::ₘ ↑(pairList (old.take i)) =
          ↑(pairList (old.take i)) + ((k, (slotAt old i).value) ::ₘ
            (↑(pairList ([] : List (Slot K V))) : Multiset (K × Option V)))
        show (k, (slotAt old i).value) ::ₘ ↑(pairList (old.take i)) =
          ↑(pairList (old.take i)) + ((k, (slotAt old i).value) ::ₘ 0)
        rw [Multiset.cons_zero]
        exact ((Multiset.singleton_add _ _).symm).trans (add_comm _ _)

theorem rehashLoop_acc {hash : K → Nat} {equals : K → K → Bool}
    {old : List (Slot K V)} {capOld cap' : Nat}
    (hlenOld : old.length = capOld) (hNDold : NoDupKeys equals old capOld)
    (hoccOld : occupiedCount old < cap') :
    ∀ fuel i (acc : List (Slot K V) × Nat), i + fuel = capOld →
      RehashAcc hash equals old cap' i acc.1 →
      RehashAcc hash equals old cap' capOld (rehashLoop hash old cap' i fuel acc).1 := by
  intro fuel
  induction fuel with
  | zero =>
    intro i acc hif hacc
    rw [rehashLoop]
    exact (by omega : i = capOld) ▸ hacc
  | succ fuel ih =>
    intro i acc hif hacc
    rw [rehashLoop]
    exact ih (i + 1) (rehashStep hash cap' acc (slotAt old i)) (by omega)
      (rehashStep_acc hlenOld hNDold hoccOld (by omega) hacc)

theorem RESIZE_FACTOR_eq : RESIZE_FACTOR = 2 := rfl

theorem INITIAL_CAPACITY_eq : INITIAL_CAPACITY = 16 := rfl

theorem ht_rehash_spec {t : HashADT K V} (hInv : TableInv t) :
    TableInv (ht_rehash t) ∧
    (↑(pairList (ht_rehash t).table) : Multiset (K × Option V)) = ↑(pairList t.table) ∧
    (ht_rehash t).capacity = t.capacity * RESIZE_FACTOR ∧
    (ht_rehash t).occupancy = t.occupancy ∧
    (ht_rehash t).rehashes = t.rehashes + 1 ∧
    (ht_rehash t).hash_fcn = t.hash_fcn ∧
    (ht_rehash t).equals_fcn = t.equals_fcn := by
  have hcap : 0 < t.capacity := by have := hInv.cap4; omega
  have hcap' : t.capacity < t.capacity * RESIZE_FACTOR := by
    rw [RESIZE_FACTOR_eq]
    omega
  have hoccOld : occupiedCount t.table < t.capacity * RESIZE_FACTOR := by
    have h1 : occupiedCount t.table < t.capacity := hInv.occ ▸ hInv.occLt
    omega
  have hinit : RehashAcc t.hash_fcn t.equals_fcn t.table
      (t.capacity * RESIZE_FACTOR) 0
      (List.replicate (t.capacity * RESIZE_FACTOR) (⟨none, none⟩ : Slot K V),
        t.collisions).1 := by
    refine ⟨List.length_replicate _ _, ?_, ?_, ?_⟩
    · intro i hi k hkk
      rw [slotAt_replicate _ hi] at hkk
      cases hkk
    · intro i hi j hj hne ki kj hki hkj
      rw [slotAt_replicate _ hi] at hki
      cases hki
    · show (↑(pairList (List.replicate (t.capacity * RESIZE_FACTOR)
        (⟨none, none⟩ : Slot K V))) : Multiset (K × Option V)) =
        ↑(pairList (List.take 0 t.table))
      rw [pairList_replicate_empty, List.take_zero]
      rfl
  have hfinal := rehashLoop_acc hInv.len hInv.nodup hoccOld t.capacity 0
    (List.replicate (t.capacity * RESIZE_FACTOR) (⟨none, none⟩ : Slot K V),
      t.collisions) (by omega) hinit
  have htake : List.take t.capacity t.table = t.table := by
    rw [← hInv.len]
    exact List.take_length t.table
  have hpairs : (↑(pairList (ht_rehash t).table) : Multiset (K × Option V)) =
      ↑(pairList t.table) := by
    have h3 := hfinal.pairs
    rw [htake] at h3
    exact h3
  refine ⟨?_, hpairs, rfl, rfl, rfl, rfl, rfl⟩
  refine ⟨hfinal.len, ?_, ?_, ?_, hfinal.probe, hfinal.nodup⟩
  · show 4 ≤ t.capacity * RESIZE_FACTOR
    have := hInv.cap4
    omega
  · show t.occupancy = occupiedCount (ht_rehash t).table
    rw [occupiedCount_eq_card, hpairs, ← occupiedCount_eq_card]
    exact hInv.occ
  · show t.occupancy < t.capacity * RESIZE_FACTOR
    have := hInv.occLt
    omega

-- Facts about ht_put.

theorem loadExceeded_iff {occ cap : Nat} :
    loadExceeded occ cap = true ↔ 3 * cap ≤ 4 * occ := by
  simp [loadExceeded]

theorem keys_eq_pairList_map (tbl : List (Slot K V)) :
    tbl.filterMap (fun s => s.key) = (pairList tbl).map Prod.fst := by
  induction tbl with
  | nil => rfl
  | cons a tl ih =>
    rw [List.filterMap_cons, pairList_cons]
    cases hk : a.key with
    | none => exact ih
    | some k =>
      rw [List.map_cons, ih]

theorem maybe_rehash_spec {t : HashADT K V} (hInv : TableInv t) :
    TableInv (if loadExceeded t.occupancy t.capacity then ht_rehash t else t) ∧
    (↑(pairList (if loadExceeded t.occupancy t.capacity then ht_rehash t
        else t).table) : Multiset (K × Option V)) = ↑(pairList t.table) ∧
    (if loadExceeded t.occupancy t.capacity then ht_rehash t
      else t).occupancy = t.occupancy ∧
    (if loadExceeded t.occupancy t.capacity then ht_rehash t
      else t).hash_fcn = t.hash_fcn ∧
    (if loadExceeded t.occupancy t.capacity then ht_rehash t
      else t).equals_fcn = t.equals_fcn := by
  by_cases hl : loadExceeded t.occupancy t.capacity = true
  · rw [if_pos hl]
    rcases ht_rehash_spec hInv with ⟨hInv1, hpairs1, -, hocc1, -, hh1, he1⟩
    exact ⟨hInv1, hpairs1, hocc1, hh1, he1⟩
  · rw [if_neg hl]
    exact ⟨hInv, rfl, rfl, rfl, rfl⟩

theorem TableInv_put {t : HashADT K V} {key : K} {v : Option V}
    (G : GoodFns t.hash_fcn t.equals_fcn) (hInv : TableInv t) :
    TableInv (ht_put t key v).2 := by
  rw [ht_put]
  by_cases hl : loadExceeded t.occupancy t.capacity = true
  · rw [if_pos hl]
    rcases ht_rehash_spec hInv with ⟨hInv1, -, hcap1, hocc1, -, hh1, he1⟩
    have hroom : 4 * (ht_rehash t).occupancy < 3 * (ht_rehash t).capacity := by
      rw [hocc1, hcap1, RESIZE_FACTOR_eq]
      have := hInv.occLt
      omega
    have G1 : GoodFns (ht_rehash t).hash_fcn (ht_rehash t).equals_fcn := by
      rw [hh1, he1]
      exact G
    exact TableInv_place G1 hInv1 hroom
  · rw [if_neg hl]
    have hroom : 4 * t.occupancy < 3 * t.capacity := by
      have := (not_iff_not.2 (@loadExceeded_iff t.occupancy t.capacity)).1 hl
      omega
    exact TableInv_place G hInv hroom

theorem ht_put_frame (t : HashADT K V) (key : K) (v : Option V) :
    (ht_put t key v).2.hash_fcn = t.hash_fcn ∧
    (ht_put t key v).2.equals_fcn = t.equals_fcn := by
  rw [ht_put]
  by_cases hl : loadExceeded t.occupancy t.capacity = true
  · rw [if_pos hl]
    rcases ht_place_frame (ht_rehash t) key v with ⟨-, -, hh, he⟩
    exact ⟨hh.trans rfl, he.trans rfl⟩
  · rw [if_neg hl]
    rcases ht_place_frame t key v with ⟨-, -, hh, he⟩
    exact ⟨hh, he⟩

theorem ht_put_match {t : HashADT K V} {key ki : K} {i : Nat} (v : Option V)
    (G : GoodFns t.hash_fcn t.equals_fcn) (hInv : TableInv t)
    (hi : i < t.capacity) (hki : (slotAt t.table i).key = some ki)
    (heq : t.equals_fcn key ki = true) :
    (ht_put t key v).1 = (slotAt t.table i).value ∧
    (ht_put t key v).2.occupancy = t.occupancy ∧
    (∃ i2 < (ht_put t key v).2.capacity,
      (slotAt (ht_put t key v).2.table i2).key = some ki ∧
      (slotAt (ht_put t key v).2.table i2).value = v) ∧
    ((ht_keys (ht_put t key v).2).Perm (ht_keys t)) := by
  rcases maybe_rehash_spec hInv with ⟨hInv1, hpairs1, hocc1, hh1, he1⟩
  have G1 : GoodFns (if loadExceeded t.occupancy t.capacity then ht_rehash t
      else t).hash_fcn (if loadExceeded t.occupancy t.capacity then ht_rehash t
      else t).equals_fcn := by
    rw [hh1, he1]
    exact G
  have hmem : (ki, (slotAt t.table i).value) ∈
      pairList (if loadExceeded t.occupancy t.capacity then ht_rehash t
        else t).table := by
    have hmem0 : (ki, (slotAt t.table i).value) ∈ pairList t.table :=
      mem_pairList.2 ⟨i, hInv.len ▸ hi, hki, rfl⟩
    exact (Multiset.coe_eq_coe.1 hpairs1).mem_iff.2 hmem0
  rcases mem_pairList.1 hmem with ⟨i1, hi1, hki1, hvi1⟩
  have hi1cap : i1 < (if loadExceeded t.occupancy t.capacity then ht_rehash t
      else t).capacity := hInv1.len ▸ hi1
  have heq1 : (if loadExceeded t.occupancy t.capacity then ht_rehash t
      else t).equals_fcn key ki = true := by
    rw [he1]
    exact heq
  rcases ht_place_match v G1 hInv1 hi1cap hki1 heq1 with ⟨hres, htab, hocc⟩
  rw [ht_put]
  refine ⟨by rw [hres, hvi1], by rw [hocc, hocc1], ?_, ?_⟩
  · refine ⟨i1, ?_, ?_, ?_⟩
    · rcases ht_place_frame (if loadExceeded t.occupancy t.capacity then ht_rehash t
        else t) key v with ⟨hc, -, -, -⟩
      rw [hc]
      exact hi1cap
    · rw [htab, slotAt_set_self _ hi1]
    · rw [htab, slotAt_set_self _ hi1]
  · show (ht_keys (ht_place (if loadExceeded t.occupancy t.capacity then ht_rehash t
      else t) key v).2).Perm (ht_keys t)
    rw [ht_keys, htab, ht_keys]
    have hsame : ((if loadExceeded t.occupancy t.capacity then ht_rehash t
        else t).table.set i1 (⟨some ki, v⟩ : Slot K V)).filterMap (fun s => s.key) =
        (if loadExceeded t.occupancy t.capacity then ht_rehash t
          else t).table.filterMap (fun s => s.key) := by
      apply keys_set_same_key
      rw [hki1]
    rw [hsame, keys_eq_pairList_map, keys_eq_pairList_map]
    exact List.Perm.map _ (Multiset.coe_eq_coe.1 hpairs1)

theorem ht_put_no_match {t : HashADT K V} {key : K} (v : Option V)
    (hInv : TableInv t)
    (hno : ∀ i < t.capacity, ∀ ki, (slotAt t.table i).key = some ki →
      t.equals_fcn key ki = false) :
    (ht_put t key v).1 = none ∧
    (ht_put t key v).2.occupancy = t.occupancy + 1 ∧
    ∃ i2 < (ht_put t key v).2.capacity,
      (slotAt (ht_put t key v).2.table i2).key = some key ∧
      (slotAt (ht_put t key v).2.table i2).value = v := by
  rcases maybe_rehash_spec hInv with ⟨hInv1, hpairs1, hocc1, hh1, he1⟩
  have hno1 : ∀ i < (if loadExceeded t.occupancy t.capacity then ht_rehash t
      else t).capacity, ∀ ki,
      (slotAt (if loadExceeded t.occupancy t.capacity then ht_rehash t
        else t).table i).key = some ki →
      (if loadExceeded t.occupancy t.capacity then ht_rehash t
        else t).equals_fcn key ki = false := by
    intro i1 hi1 ki hki1
    have hmem : (ki, (slotAt (if loadExceeded t.occupancy t.capacity then ht_rehash t
        else t).table i1).value) ∈
        pairList (if loadExceeded t.occupancy t.capacity then ht_rehash t
          else t).table :=
      mem_pairList.2 ⟨i1, hInv1.len ▸ hi1, hki1, rfl⟩
    have hmem0 := (Multiset.coe_eq_coe.1 hpairs1).mem_iff.1 hmem
    rcases mem_pairList.1 hmem0 with ⟨i0, hi0, hki0, -⟩
    rw [he1]
    exact hno i0 (hInv.len ▸ hi0) ki hki0
  rcases ht_place_insert v hInv1 hno1 with ⟨hres, hocc, istar, histar, -, -, hkey2, hval2⟩
  rw [ht_put]
  refine ⟨hres, by rw [hocc, hocc1], istar, ?_, hkey2, hval2⟩
  rcases ht_place_frame (if loadExceeded t.occupancy t.capacity then ht_rehash t
    else t) key v with ⟨hc, -, -, -⟩
  rw [hc]
  exact histar

-- The representation invariant holds for every reachable table.

theorem TableInv_create (hash : K → Nat) (equals : K → K → Bool) :
    TableInv (ht_create (V := V) hash equals) := by
  refine ⟨?_, ?_, ?_, ?_, ?_, ?_⟩
  · exact List.length_replicate _ _
  · show 4 ≤ INITIAL_CAPACITY
    decide
  · show 0 = occupiedCount (List.replicate INITIAL_CAPACITY (⟨none, none⟩ : Slot K V))
    rw [occupiedCount, pairList_replicate_empty]
    rfl
  · show (0 : Nat) < INITIAL_CAPACITY
    decide
  · show ProbeInv hash (List.replicate INITIAL_CAPACITY (⟨none, none⟩ : Slot K V))
      INITIAL_CAPACITY
    intro i hi k hkk
    rw [slotAt_replicate _ hi] at hkk
    cases hkk
  · show NoDupKeys equals (List.replicate INITIAL_CAPACITY (⟨none, none⟩ : Slot K V))
      INITIAL_CAPACITY
    intro i hi j hj hne ki kj hki hkj
    rw [slotAt_replicate _ hi] at hki
    cases hki

theorem reachable_TableInv {t : HashADT K V} (hr : Reachable t)
    (G : GoodFns t.hash_fcn t.equals_fcn) : TableInv t := by
  induction hr with
  | create hash equals => exact TableInv_create hash equals
  | put t0 key v hr0 ih =>
    rcases ht_put_frame t0 key v with ⟨hh, he⟩
    rw [hh, he] at G
    exact TableInv_put G (ih G)

theorem ht_put_establishes {t : HashADT K V} (key : K) (v : Option V)
    (G : GoodFns t.hash_fcn t.equals_fcn) (hInv : TableInv t) :
    ∃ i < (ht_put t key v).2.capacity, ∃ ki,
      (slotAt (ht_put t key v).2.table i).key = some ki ∧
      t.equals_fcn key ki = true ∧
      (slotAt (ht_put t key v).2.table i).value = v := by
  by_cases hex : ∃ i0 < t.capacity, ∃ ki, (slotAt t.table i0).key = some ki ∧
    t.equals_fcn key ki = true
  · rcases hex with ⟨i0, hi0, ki, hki, heq⟩
    rcases ht_put_match v G hInv hi0 hki heq with ⟨-, -, ⟨i2, hi2, hk2, hv2⟩, -⟩
    exact ⟨i2, hi2, ki, hk2, heq, hv2⟩
  · push_neg at hex
    have hno : ∀ i0 < t.capacity, ∀ ki, (slotAt t.table i0).key = some ki →
        t.equals_fcn key ki = false := by
      intro i0 hi0 ki hki
      cases hkb : t.equals_fcn key ki with
      | false => rfl
      | true => exact absurd hkb (hex i0 hi0 ki hki)
    rcases ht_put_no_match v hInv hno with ⟨-, -, i2, hi2, hk2, hv2⟩
    exact ⟨i2, hi2, key, hk2, G.refl key, hv2⟩

theorem ht_get_unique {t : HashADT K V} {key ki : K} {i : Nat}
    (G : GoodFns t.hash_fcn t.equals_fcn) (hInv : TableInv t)
    (hi : i < t.capacity) (hki : (slotAt t.table i).key = some ki)
    (heq : t.equals_fcn key ki = true) :
    (ht_has t key).1 = true ∧ (ht_get t key).1 = some (slotAt t.table i).value := by
  have hhas := ht_has_eq_true G hInv hi hki heq
  rcases ht_get_spec hhas with ⟨i2, hi2, ki2, hki2, heq2, hget⟩
  by_cases hii : i = i2
  · subst hii
    exact ⟨hhas, hget⟩
  · have hik : t.equals_fcn ki ki2 = true :=
      G.trans ki key ki2 (G.symm key ki heq) heq2
    have hfalse := hInv.nodup i hi i2 hi2 hii ki ki2 hki hki2
    rw [hfalse] at hik
    cases hik

-- Client callbacks of the concrete witness tables are well behaved.

theorem goodFns_exHash : GoodFns exHash exEq := by
  refine ⟨fun a => ?_, fun a b h => ?_, fun a b c h1 h2 => ?_, fun a b h => ?_⟩ <;>
    simp_all [exEq, exHash]

theorem goodFns_exHash0 : GoodFns exHash0 exEq := by
  refine ⟨fun a => ?_, fun a b h => ?_, fun a b c h1 h2 => ?_, fun a b h => ?_⟩ <;>
    simp_all [exEq, exHash0]

theorem tableInv_exT1 : TableInv exT1 :=
  TableInv_put goodFns_exHash (TableInv_create exHash exEq)

-- The claims.

/-- C1: the claim requires ht_values to include a slot's value exactly when
the slot is occupied, decided by the key field, so that a stored NULL value
is still included.  The source instead filters by the value field
(HashADT.c line 499): after ht_put of key 5 with value NULL the table has
occupancy 1 and ht_keys returns the one key, yet ht_values returns the
empty sequence, omitting the legitimately stored NULL value. -/
theorem C1_values_omits_null_value :
    exT1.occupancy = 1 ∧ ht_keys exT1 = [5] ∧ ht_values exT1 = [] := by
  decide

/-- C2 counterexample: ht_get is claimed to leave the collision counter (and
all other state) unchanged, but its assert executes ht_has, which counts
collisions: on a table where keys 0 and 1 both hash to 0, ht_get for key 1
increments the collision counter. -/
theorem C2_counterexample :
    (ht_has exT2 1).1 = true ∧
    ¬ (ht_get exT2 1).2.collisions = exT2.collisions := by
  decide

/-- C2 amended: when ht_has holds, ht_get returns the value of the slot
whose key matches, and its own probe loop performs no collision counting;
every table field except the collision counter is unchanged, and the
collision counter changes exactly as the ht_has call executed by the
assert changes it. -/
theorem C2_get_amended (t : HashADT K V) (key : K)
    (hhas : (ht_has t key).1 = true) :
    (∃ i < t.capacity, ∃ ki, (slotAt t.table i).key = some ki ∧
      t.equals_fcn key ki = true ∧
      (ht_get t key).1 = some (slotAt t.table i).value) ∧
    (ht_get t key).2.table = t.table ∧
    (ht_get t key).2.capacity = t.capacity ∧
    (ht_get t key).2.occupancy = t.occupancy ∧
    (ht_get t key).2.rehashes = t.rehashes ∧
    (ht_get t key).2.collisions = (ht_has t key).2.collisions := by
  rcases ht_has_frame t key with ⟨hc, ho, hr, htab, -, -⟩
  refine ⟨ht_get_spec hhas, ?_, ?_, ?_, ?_, ?_⟩ <;> rw [ht_get_snd]
  exacts [htab, hc, ho, hr]

theorem C2_witness :
    (ht_has exT2 1).1 = true ∧
    (ht_get exT2 1).2.collisions = (ht_has exT2 1).2.collisions :=
  ⟨by decide, (C2_get_amended exT2 1 (by decide)).2.2.2.2.2⟩

/-- C3: when the load threshold is reached, the next ht_put first grows the
table: the resulting capacity is the old capacity times RESIZE_FACTOR, the
rehash counter is incremented exactly once, and the call is literally the
placement of its own key against the already-rehashed table. -/
theorem C3_put_grows {t : HashADT K V} (key : K) (v : Option V)
    (hload : 3 * t.capacity ≤ 4 * t.occupancy) :
    (ht_put t key v).2.capacity = t.capacity * RESIZE_FACTOR ∧
    (ht_put t key v).2.rehashes = t.rehashes + 1 ∧
    ht_put t key v = ht_place (ht_rehash t) key v := by
  have hl : loadExceeded t.occupancy t.capacity = true := loadExceeded_iff.2 hload
  have hput : ht_put t key v = ht_place (ht_rehash t) key v := by
    rw [ht_put, if_pos hl]
  rcases ht_place_frame (ht_rehash t) key v with ⟨hc, hr, -, -⟩
  refine ⟨?_, ?_, hput⟩
  · rw [hput, hc]
    rfl
  · rw [hput, hr]
    rfl

theorem C3_witness :
    3 * exT12.capacity ≤ 4 * exT12.occupancy ∧
    (ht_put exT12 12 (some 12)).2.capacity = exT12.capacity * RESIZE_FACTOR ∧
    (ht_put exT12 12 (some 12)).2.rehashes = exT12.rehashes + 1 :=
  ⟨by decide, (C3_put_grows 12 (some 12) (by decide)).1,
   (C3_put_grows 12 (some 12) (by decide)).2.1⟩

/-- C4: a rehash preserves the logical content: for every key present
before the rehash, ht_get returns the same value afterwards, and both the
occupancy field and the number of occupied slots are unchanged. -/
theorem C4_rehash_preserves (t : HashADT K V) (key : K)
    (G : GoodFns t.hash_fcn t.equals_fcn) (hInv : TableInv t)
    (hhas : (ht_has t key).1 = true) :
    (ht_get (ht_rehash t) key).1 = (ht_get t key).1 ∧
    (ht_rehash t).occupancy = t.occupancy ∧
    occupiedCount (ht_rehash t).table = occupiedCount t.table := by
  rcases exists_match_of_ht_has hhas with ⟨i, hi, ki, hki, heq, -⟩
  have hget1 := (ht_get_unique G hInv hi hki heq).2
  rcases ht_rehash_spec hInv with ⟨hInv1, hpairs, -, hocc, -, hh, he⟩
  have hmem : (ki, (slotAt t.table i).value) ∈ pairList (ht_rehash t).table :=
    (Multiset.coe_eq_coe.1 hpairs).mem_iff.2
      (mem_pairList.2 ⟨i, hInv.len ▸ hi, hki, rfl⟩)
  rcases mem_pairList.1 hmem with ⟨i1, hi1, hki1, hvi1⟩
  have G1 : GoodFns (ht_rehash t).hash_fcn (ht_rehash t).equals_fcn := by
    rw [hh, he]
    exact G
  have heq1 : (ht_rehash t).equals_fcn key ki = true := by
    rw [he]
    exact heq
  have hget2 := (ht_get_unique G1 hInv1 (hInv1.len ▸ hi1) hki1 heq1).2
  refine ⟨?_, hocc, ?_⟩
  · rw [hget2, hget1, hvi1]
  · rw [occupiedCount_eq_card, occupiedCount_eq_card, hpairs]

theorem C4_witness :
    GoodFns exHash exEq ∧ TableInv exT1 ∧ (ht_has exT1 5).1 = true ∧
    (ht_get (ht_rehash exT1) 5).1 = (ht_get exT1 5).1 ∧
    (ht_rehash exT1).occupancy = exT1.occupancy :=
  ⟨goodFns_exHash, tableInv_exT1, by decide,
   (C4_rehash_preserves exT1 5 goodFns_exHash tableInv_exT1 (by decide)).1,
   (C4_rehash_preserves exT1 5 goodFns_exHash tableInv_exT1 (by decide)).2.1⟩

/-- C5: every ht_put call, including its rehash path, re-establishes the
probe-sequence invariant: each occupied slot is connected to the home index
of its key by a gap-free run of occupied slots. -/
theorem C5_put_preserves_probeInv (t : HashADT K V) (key : K) (v : Option V)
    (G : GoodFns t.hash_fcn t.equals_fcn) (hInv : TableInv t) :
    ProbeInv (ht_put t key v).2.hash_fcn (ht_put t key v).2.table
      (ht_put t key v).2.capacity :=
  (TableInv_put G hInv).probe

theorem C5_witness :
    GoodFns exHash exEq ∧ TableInv (ht_create (V := Nat) exHash exEq) ∧
    ProbeInv (ht_put (ht_create (V := Nat) exHash exEq) 5 none).2.hash_fcn
      (ht_put (ht_create (V := Nat) exHash exEq) 5 none).2.table
      (ht_put (ht_create (V := Nat) exHash exEq) 5 none).2.capacity :=
  ⟨goodFns_exHash, TableInv_create exHash exEq,
   C5_put_preserves_probeInv (ht_create exHash exEq) 5 none goodFns_exHash
     (TableInv_create exHash exEq)⟩

/-- C6: putting key k with v1 and then again with v2 is an update in place:
the second put returns v1, leaves occupancy unchanged, and a subsequent
ht_get returns v2. -/
theorem C6_put_put (t : HashADT K V) (key : K) (v1 v2 : Option V)
    (G : GoodFns t.hash_fcn t.equals_fcn) (hInv : TableInv t) :
    (ht_put (ht_put t key v1).2 key v2).1 = v1 ∧
    (ht_put (ht_put t key v1).2 key v2).2.occupancy =
      (ht_put t key v1).2.occupancy ∧
    (ht_get (ht_put (ht_put t key v1).2 key v2).2 key).1 = some v2 := by
  rcases ht_put_establishes key v1 G hInv with ⟨i1, hi1, ki1, hk1, heq1, hv1⟩
  rcases ht_put_frame t key v1 with ⟨hh1, he1⟩
  have G1 : GoodFns (ht_put t key v1).2.hash_fcn (ht_put t key v1).2.equals_fcn := by
    rw [hh1, he1]
    exact G
  have hInv1 : TableInv (ht_put t key v1).2 := TableInv_put G hInv
  have heq1' : (ht_put t key v1).2.equals_fcn key ki1 = true := by
    rw [he1]
    exact heq1
  rcases ht_put_match v2 G1 hInv1 hi1 hk1 heq1' with ⟨hres, hocc, ⟨i3, hi3, hk3, hv3⟩, -⟩
  have hInv2 : TableInv (ht_put (ht_put t key v1).2 key v2).2 := TableInv_put G1 hInv1
  rcases ht_put_frame (ht_put t key v1).2 key v2 with ⟨hh2, he2⟩
  have G2 : GoodFns (ht_put (ht_put t key v1).2 key v2).2.hash_fcn
      (ht_put (ht_put t key v1).2 key v2).2.equals_fcn := by
    rw [hh2, he2]
    exact G1
  have heq3 : (ht_put (ht_put t key v1).2 key v2).2.equals_fcn key ki1 = true := by
    rw [he2, he1]
    exact heq1
  have hget := (ht_get_unique G2 hInv2 hi3 hk3 heq3).2
  exact ⟨by rw [hres, hv1], hocc, by rw [hget, hv3]⟩

theorem C6_witness :
    GoodFns exHash exEq ∧ TableInv (ht_create (V := Nat) exHash exEq) ∧
    (ht_put (ht_put (ht_create (V := Nat) exHash exEq) 3 (some 1)).2 3 (some 2)).1 =
      some 1 ∧
    (ht_get (ht_put (ht_put (ht_create (V := Nat) exHash exEq) 3 (some 1)).2
      3 (some 2)).2 3).1 = some (some 2) :=
  ⟨goodFns_exHash, TableInv_create exHash exEq,
   (C6_put_put (ht_create exHash exEq) 3 (some 1) (some 2) goodFns_exHash (TableInv_create exHash exEq)).1,
   (C6_put_put (ht_create exHash exEq) 3 (some 1) (some 2) goodFns_exHash (TableInv_create exHash exEq)).2.2⟩

/-- C7: ht_has probes linearly from the home index of the key's hash: there
is a step count j of at most capacity such that every earlier probed slot
is occupied and non-matching, the collision counter advances by exactly j,
and the call returns false at a first empty slot, true at a first matching
slot, or false after one full cycle of capacity steps. -/
theorem C7_has_spec (t : HashADT K V) (key : K) :
    ∃ j ≤ t.capacity,
      (∀ d < j, ∃ kd,
        (slotAt t.table ((t.hash_fcn key + d) % t.capacity)).key = some kd ∧
        t.equals_fcn key kd = false) ∧
      (ht_has t key).2 = { t with collisions := t.collisions + j } ∧
      ((j < t.capacity ∧
          (slotAt t.table ((t.hash_fcn key + j) % t.capacity)).key = none ∧
          (ht_has t key).1 = false) ∨
       (j < t.capacity ∧
          (∃ kj, (slotAt t.table ((t.hash_fcn key + j) % t.capacity)).key = some kj ∧
            t.equals_fcn key kj = true) ∧
          (ht_has t key).1 = true) ∨
       (j = t.capacity ∧ (ht_has t key).1 = false)) := by
  cases hpf : probeFind t.equals_fcn t.table t.capacity key (t.hash_fcn key) t.capacity 0 with
  | none =>
    refine ⟨t.capacity, Nat.le_refl _, ?_, ?_, Or.inr (Or.inr ⟨rfl, ?_⟩)⟩
    · intro d hd
      exact probeFind_none_spec hpf d (Nat.zero_le _) (by omega)
    · rw [ht_has]
      simp only [hpf]
    · rw [ht_has]
      simp only [hpf]
  | some r =>
    rcases r with ⟨j, b⟩
    rcases probeFind_some_spec hpf with ⟨-, hjb, hprev, hbt, hbf⟩
    have hjlt : j < t.capacity := by omega
    refine ⟨j, Nat.le_of_lt hjlt, ?_, ?_, ?_⟩
    · intro d hd
      exact hprev d (Nat.zero_le _) hd
    · rw [ht_has]
      simp only [hpf]
    · cases b with
      | false =>
        refine Or.inl ⟨hjlt, hbf rfl, ?_⟩
        rw [ht_has]
        simp only [hpf]
      | true =>
        refine Or.inr (Or.inl ⟨hjlt, hbt rfl, ?_⟩)
        rw [ht_has]
        simp only [hpf]

/-- C8: ht_put never fails: when the key is absent it returns NULL and
increments occupancy by one; when the key is present it returns the
previous value reference; in both cases ht_has holds immediately
afterwards. -/
theorem C8_put_total (t : HashADT K V) (key : K) (v : Option V)
    (G : GoodFns t.hash_fcn t.equals_fcn) (hInv : TableInv t) :
    ((ht_has t key).1 = false → (ht_put t key v).1 = none ∧
      (ht_put t key v).2.occupancy = t.occupancy + 1) ∧
    ((ht_has t key).1 = true → ∃ i < t.capacity, ∃ ki,
      (slotAt t.table i).key = some ki ∧ t.equals_fcn key ki = true ∧
      (ht_put t key v).1 = (slotAt t.table i).value) ∧
    (ht_has (ht_put t key v).2 key).1 = true := by
  refine ⟨?_, ?_, ?_⟩
  · intro hf
    rcases ht_put_no_match v hInv (no_match_of_ht_has_false G hInv hf) with ⟨h1, h2, -⟩
    exact ⟨h1, h2⟩
  · intro htr
    rcases exists_match_of_ht_has htr with ⟨i, hi, ki, hki, heq, -⟩
    rcases ht_put_match v G hInv hi hki heq with ⟨hres, -, -, -⟩
    exact ⟨i, hi, ki, hki, heq, hres⟩
  · rcases ht_put_establishes key v G hInv with ⟨i2, hi2, ki2, hk2, heq2, -⟩
    rcases ht_put_frame t key v with ⟨hh, he⟩
    have G2 : GoodFns (ht_put t key v).2.hash_fcn (ht_put t key v).2.equals_fcn := by
      rw [hh, he]
      exact G
    have heq2' : (ht_put t key v).2.equals_fcn key ki2 = true := by
      rw [he]
      exact heq2
    exact ht_has_eq_true G2 (TableInv_put G hInv) hi2 hk2 heq2'

theorem C8_witness :
    GoodFns exHash exEq ∧ TableInv (ht_create (V := Nat) exHash exEq) ∧
    ((ht_has (ht_create (V := Nat) exHash exEq) 3).1 = false →
      (ht_put (ht_create (V := Nat) exHash exEq) 3 (some 9)).1 = none ∧
      (ht_put (ht_create (V := Nat) exHash exEq) 3 (some 9)).2.occupancy =
        (ht_create (V := Nat) exHash exEq).occupancy + 1) ∧
    (ht_has (ht_put (ht_create (V := Nat) exHash exEq) 3 (some 9)).2 3).1 = true :=
  ⟨goodFns_exHash, TableInv_create exHash exEq,
   (C8_put_total (ht_create exHash exEq) 3 (some 9) goodFns_exHash (TableInv_create exHash exEq)).1,
   (C8_put_total (ht_create exHash exEq) 3 (some 9) goodFns_exHash (TableInv_create exHash exEq)).2.2⟩

/-- C9: every table reachable from ht_create by ht_put calls has positive
capacity and strictly fewer occupied slots than capacity: a full table
never occurs, which is what makes the unguarded probe loops terminate. -/
theorem C9_never_full {t : HashADT K V} (hr : Reachable t)
    (G : GoodFns t.hash_fcn t.equals_fcn) :
    0 < t.capacity ∧ t.occupancy < t.capacity := by
  have hInv := reachable_TableInv hr G
  have := hInv.cap4
  exact ⟨by omega, hInv.occLt⟩

theorem C9_witness :
    Reachable (ht_create (V := Nat) exHash exEq) ∧ GoodFns exHash exEq ∧
    0 < (ht_create (V := Nat) exHash exEq).capacity ∧
    (ht_create (V := Nat) exHash exEq).occupancy <
      (ht_create (V := Nat) exHash exEq).capacity :=
  ⟨Reachable.create exHash exEq, goodFns_exHash,
   C9_never_full (Reachable.create exHash exEq) goodFns_exHash⟩

/-- C10: when ht_put updates an existing key it overwrites only the value
field: the multiset of stored key references is unchanged, so a later
ht_keys (and the destroy-time delete callback) receives the originally
inserted key pointer and never the pointer passed to the updating put;
occupancy is unchanged as well. -/
theorem C10_update_keeps_keys (t : HashADT K V) (key : K) (v : Option V)
    (G : GoodFns t.hash_fcn t.equals_fcn) (hInv : TableInv t)
    (hhas : (ht_has t key).1 = true) :
    (ht_keys (ht_put t key v).2).Perm (ht_keys t) ∧
    (ht_put t key v).2.occupancy = t.occupancy := by
  rcases exists_match_of_ht_has hhas with ⟨i, hi, ki, hki, heq, -⟩
  rcases ht_put_match v G hInv hi hki heq with ⟨-, hocc, -, hperm⟩
  exact ⟨hperm, hocc⟩

theorem C10_witness :
    GoodFns exHash exEq ∧ TableInv exT1 ∧ (ht_has exT1 5).1 = true ∧
    (ht_keys (ht_put exT1 5 (some 42)).2).Perm (ht_keys exT1) :=
  ⟨goodFns_exHash, tableInv_exT1, by decide,
   (C10_update_keeps_keys exT1 5 (some 42) goodFns_exHash tableInv_exT1 (by decide)).1⟩
